import Mathlib

/-!
Shallow embedding of the core of `sup.c`, a multi-threaded chat server:
a bounded circular handoff queue of client sockets (`queue_add`, `queue_get`,
`queue_size` with `QUEUE_MAX = 16`), a linked-list registry of active client
sockets guarded by one mutex (`list_append`, `list_delete`, `list_broadcast`),
and the worker loop (`run`, `do_work`).

Modelling conventions:
- a socket descriptor is an `Int`;
- the linked list `list.head` is a `List Int` (front of the list = most
  recently appended node);
- the outcome of the C library call `write(sock, buf, len)` is modelled by an
  environment function `w : Int → Int` giving the value returned by `write`
  for each socket during one broadcast;
- `malloc` success or failure in `list_append` is an explicit `allocOk` flag;
- the registry mutex is modelled as an explicit "still locked when the
  function returns" flag on the operations that can return early;
- the read results seen by `do_work` are a list of `ReadRes` values.
-/

/-- `QUEUE_MAX` from sup.c. -/
def QUEUE_MAX : Nat := 16

/-- The waiting-socket queue: a circular buffer of `QUEUE_MAX` slots with a
read cursor and a write cursor, both kept in `[0, QUEUE_MAX)` exactly as the
C code keeps them via `% QUEUE_MAX`. -/
structure Queue where
  sockets : Fin 16 → Int
  read : Fin 16
  write : Fin 16

/-- `queue_init`: both cursors at 0 (slot contents are irrelevant; 0 here). -/
def Queue.start : Queue := ⟨fun _ => 0, 0, 0⟩

/-- `queue_size`: `(QUEUE_MAX - queue.read + queue.write) % QUEUE_MAX`. -/
def queue_size (q : Queue) : Nat := (16 - q.read.val + q.write.val) % 16

/-- `queue_add`: return -1 immediately if `queue_size() == QUEUE_MAX-1`,
otherwise store the socket at the write cursor, advance the write cursor
modulo `QUEUE_MAX`, and return 0. -/
def queue_add (sock : Int) (q : Queue) : Int × Queue :=
  if queue_size q = 15 then (-1, q)
  else (0, ⟨fun j => if j = q.write then sock else q.sockets j, q.read,
            ⟨(q.write.val + 1) % 16, Nat.mod_lt _ (by omega)⟩⟩)

/-- The queue state after a successful `queue_get`: the read cursor advances
modulo `QUEUE_MAX`; slots and write cursor are untouched. -/
def queue_next (q : Queue) : Queue :=
  ⟨q.sockets, ⟨(q.read.val + 1) % 16, Nat.mod_lt _ (by omega)⟩, q.write⟩

/-- `queue_get`: wait while `queue_size()` is 0 (modelled as `none`: in a
sequential trace the call would block forever); otherwise return the socket
at the read cursor and advance the read cursor modulo `QUEUE_MAX`. -/
def queue_get (q : Queue) : Option (Int × Queue) :=
  if queue_size q = 0 then none
  else some (q.sockets q.read, queue_next q)

/-- The pending sockets in dequeue order: `queue_size q` slots starting at the
read cursor and wrapping modulo 16. -/
def contents (q : Queue) : List Int :=
  (List.range (queue_size q)).map
    (fun i => q.sockets ⟨(q.read.val + i) % 16, Nat.mod_lt _ (by omega)⟩)

/-- `list_append`: malloc a node (outcome `allocOk`); on failure return NULL
(`none`) leaving the list untouched; on success push the node on the front of
the list and return it (modelled by the socket it carries). -/
def list_append (allocOk : Bool) (sock : Int) (l : List Int) :
    Option Int × List Int :=
  if allocOk then (some sock, sock :: l) else (none, l)

/-- Result of `list_delete`: the new list contents, and whether `list.mutex`
is still held when the function returns (the not-found path returns without
unlocking). -/
structure DeleteOut where
  head : List Int
  locked : Bool
  deriving DecidableEq

/-- `list_delete`: scan for the first node whose socket equals `sock`; if none
is found, return with the mutex still held; if found, unlink exactly that
node, free it, and unlock. -/
def list_delete (sock : Int) : List Int → DeleteOut
  | [] => ⟨[], true⟩
  | x :: xs =>
    if x = sock then ⟨xs, false⟩
    else
      let o := list_delete sock xs
      ⟨x :: o.head, o.locked⟩

/-- Result of `list_broadcast`: the return value, whether `list.mutex` is
still held on return (the failure path returns -1 without unlocking), the
sockets passed to `write` in order, and the sockets whose `write` returned
`len` (received the payload in full), in order. -/
structure BcastOut where
  result : Int
  locked : Bool
  attempted : List Int
  delivered : List Int
  deriving DecidableEq

/-- `list_broadcast`: walk the list from the head; `write` the whole buffer to
each socket; if some `write` does not return `len`, return -1 right there
(mutex still held, later nodes never written); after the last node unlock and
return 0. -/
def list_broadcast (w : Int → Int) (len : Int) : List Int → BcastOut
  | [] => ⟨0, false, [], []⟩
  | s :: rest =>
    if w s = len then
      let o := list_broadcast w len rest
      ⟨o.result, o.locked, s :: o.attempted, s :: o.delivered⟩
    else ⟨-1, true, [s], []⟩

/-- One result of `read(client, buf, sizeof(buf)-1)` in `do_work`:
a negative return (`rerr`), end of stream (`reof`, return 0), or `n > 0`
bytes of data (`rdata bytes` with `n = bytes.length`). -/
inductive ReadRes where
  | rerr : ReadRes
  | reof : ReadRes
  | rdata : List Int → ReadRes
  deriving DecidableEq

/-- `do_work`: loop reading from the client; stop on read error or end of
stream; on a read of `n > 0` bytes store a null byte at `buf[n]` and call
`list_broadcast(buf, n+1)`; stop after a broadcast that returns a negative
value. Returns the list of `(payload, len)` arguments of the broadcast calls
made, in order. -/
def do_work (w : Int → Int) (registry : List Int) : List ReadRes →
    List (List Int × Int)
  | [] => []
  | ReadRes.rerr :: _ => []
  | ReadRes.reof :: _ => []
  | ReadRes.rdata bytes :: rest =>
    let payload := bytes ++ [0]
    let len : Int := (bytes.length : Int) + 1
    if (list_broadcast w len registry).result < 0 then [(payload, len)]
    else (payload, len) :: do_work w registry rest

/-- One iteration of the worker loop `run`, after `queue_get` returned
`client`: call `list_append(client)` (ignoring its result), then
`do_work(client)`, then `list_delete(client)`, then close. Returns the final
registry contents and the broadcast calls issued while servicing the client.
-/
def run_iter (allocOk : Bool) (w : Int → Int) (reads : List ReadRes)
    (client : Int) (registry : List Int) : List Int × List (List Int × Int) :=
  let reg1 := (list_append allocOk client registry).2
  let casts := do_work w reg1 reads
  let reg2 := (list_delete client reg1).head
  (reg2, casts)

lemma queue_size_lt (q : Queue) : queue_size q < 16 :=
  Nat.mod_lt _ (by omega)

lemma contents_length (q : Queue) : (contents q).length = queue_size q := by
  simp [contents]

lemma queue_add_full (sock : Int) (q : Queue) (h : queue_size q = 15) :
    queue_add sock q = (-1, q) := by
  simp [queue_add, h]

lemma queue_add_ok (sock : Int) (q : Queue) (h : queue_size q < 15) :
    (queue_add sock q).1 = 0 ∧
    contents (queue_add sock q).2 = contents q ++ [sock] := by
  have hr := q.read.isLt
  have hw := q.write.isLt
  have hne : ¬ queue_size q = 15 := by omega
  have hn : queue_size q = (16 - q.read.val + q.write.val) % 16 := rfl
  refine ⟨by simp [queue_add, hne], ?_⟩
  have hq2 : (queue_add sock q).2 =
      ⟨fun j => if j = q.write then sock else q.sockets j, q.read,
       ⟨(q.write.val + 1) % 16, Nat.mod_lt _ (by omega)⟩⟩ := by
    simp [queue_add, hne]
  rw [hq2]
  show (List.range ((16 - q.read.val + (q.write.val + 1) % 16) % 16)).map
      (fun i => if (⟨(q.read.val + i) % 16, Nat.mod_lt _ (by omega)⟩ : Fin 16)
          = q.write then sock else
          q.sockets ⟨(q.read.val + i) % 16, Nat.mod_lt _ (by omega)⟩)
      = contents q ++ [sock]
  have hsz : (16 - q.read.val + (q.write.val + 1) % 16) % 16
      = queue_size q + 1 := by omega
  rw [hsz, List.range_succ, List.map_append]
  congr 1
  · unfold contents
    apply List.map_congr_left
    intro i hi
    rw [List.mem_range] at hi
    have hiw : (q.read.val + i) % 16 ≠ q.write.val := by omega
    rw [if_neg]
    intro hcon
    exact hiw (by simpa [Fin.ext_iff] using hcon)
  · have hpos : (q.read.val + queue_size q) % 16 = q.write.val := by omega
    simp only [List.map_cons, List.map_nil]
    rw [if_pos (Fin.ext_iff.mpr (by simpa using hpos))]

lemma queue_get_ok (q : Queue) (h : 0 < queue_size q) :
    queue_get q = some (q.sockets q.read, queue_next q) ∧
    contents q = q.sockets q.read :: contents (queue_next q) := by
  have hr := q.read.isLt
  have hw := q.write.isLt
  have hn : queue_size q = (16 - q.read.val + q.write.val) % 16 := rfl
  have hne : ¬ queue_size q = 0 := by omega
  refine ⟨by simp [queue_get, hne], ?_⟩
  have hsz : queue_size (queue_next q) = queue_size q - 1 := by
    show (16 - (q.read.val + 1) % 16 + q.write.val) % 16 = queue_size q - 1
    omega
  unfold contents
  rw [hsz]
  have hsz2 : queue_size q = (queue_size q - 1) + 1 := by omega
  rw [hsz2, List.range_succ_eq_map, List.map_cons, List.map_map]
  congr 1
  · have h0 : (q.read.val + 0) % 16 = q.read.val := by omega
    exact congrArg q.sockets (Fin.ext_iff.mpr (by simp [h0]))
  · apply List.map_congr_left
    intro i hi
    show q.sockets ⟨(q.read.val + (i + 1)) % 16, _⟩
        = q.sockets ⟨((q.read.val + 1) % 16 + i) % 16, _⟩
    have heq : (q.read.val + (i + 1)) % 16 = ((q.read.val + 1) % 16 + i) % 16 := by
      omega
    exact congrArg q.sockets (Fin.ext_iff.mpr (by simpa using heq))

/-- Queue states reachable from `queue_init` by `queue_add` and `queue_get`
calls. -/
inductive Reachable : Queue → Prop where
  | start : Reachable Queue.start
  | add (sock : Int) (q : Queue) : Reachable q → Reachable (queue_add sock q).2
  | get (q : Queue) (sock : Int) (q2 : Queue) : Reachable q →
      queue_get q = some (sock, q2) → Reachable q2

/-- A queue operation issued by the acceptor (`queue_add sock`) or a worker
(`queue_get`). -/
inductive QOp where
  | enq : Int → QOp
  | deq : QOp
  deriving DecidableEq

/-- One queue operation against the circular-buffer implementation, threading
the list of values returned by `queue_get` so far. A rejected `queue_add`
leaves the state unchanged; a `queue_get` on an empty queue would block and
is modelled as a stutter. -/
def implStep : Queue × List Int → QOp → Queue × List Int
  | (q, out), QOp.enq sock => ((queue_add sock q).2, out)
  | (q, out), QOp.deq =>
    match queue_get q with
    | none => (q, out)
    | some (sock, q2) => (q2, out ++ [sock])

/-- The same operation against the obvious functional FIFO queue: enqueue at
the back, dequeue from the front. -/
def specStep : List Int × List Int → QOp → List Int × List Int
  | (pend, out), QOp.enq sock => (pend ++ [sock], out)
  | ([], out), QOp.deq => ([], out)
  | (x :: pend, out), QOp.deq => (pend, out ++ [x])

/-- Run a sequence of queue operations against the implementation, starting
from the initial queue. -/
def runQueueImpl (ops : List QOp) : Queue × List Int :=
  ops.foldl implStep (Queue.start, [])

/-- Run a sequence of queue operations against the functional FIFO model. -/
def runQueueSpec (ops : List QOp) : List Int × List Int :=
  ops.foldl specStep ([], [])

/-- A trace is valid from a pending count `n` when every enqueue happens with
fewer than 15 items pending (so it succeeds) and every dequeue happens with
at least one item pending (so it does not block). -/
def validFrom : Nat → List QOp → Bool
  | _, [] => true
  | n, QOp.enq _ :: ops => decide (n < 15) && validFrom (n + 1) ops
  | n, QOp.deq :: ops => decide (0 < n) && validFrom (n - 1) ops

lemma fifo_sim (ops : List QOp) : ∀ (q : Queue) (pend out : List Int),
    contents q = pend → validFrom pend.length ops = true →
    (ops.foldl implStep (q, out)).2 = (ops.foldl specStep (pend, out)).2 := by
  induction ops with
  | nil => intro q pend out _ _; rfl
  | cons op ops ih =>
    intro q pend out hc hv
    cases op with
    | enq sock =>
      rw [validFrom, Bool.and_eq_true, decide_eq_true_iff] at hv
      have hsz : queue_size q < 15 := by
        rw [← contents_length, hc]; exact hv.1
      have hadd := queue_add_ok sock q hsz
      simp only [List.foldl_cons, implStep, specStep]
      exact ih _ _ _ (by rw [hadd.2, hc]) (by simpa using hv.2)
    | deq =>
      rw [validFrom, Bool.and_eq_true, decide_eq_true_iff] at hv
      have hsz : 0 < queue_size q := by
        rw [← contents_length, hc]; exact hv.1
      have hget := queue_get_ok q hsz
      obtain ⟨x, pend2, hpend⟩ : ∃ x pend2, pend = x :: pend2 := by
        cases pend with
        | nil => exact absurd hv.1 (by simp)
        | cons x pend2 => exact ⟨x, pend2, rfl⟩
      have hcons : x :: pend2 = q.sockets q.read :: contents (queue_next q) := by
        rw [← hpend, ← hc]; exact hget.2
      injection hcons with h1 h2
      simp only [List.foldl_cons]
      have himpl : implStep (q, out) QOp.deq = (queue_next q, out ++ [x]) := by
        show (match queue_get q with
          | none => (q, out)
          | some (sock, q2) => (q2, out ++ [sock])) = _
        rw [hget.1, ← h1]
      rw [himpl, hpend]
      show _ = (ops.foldl specStep (pend2, out ++ [x])).2
      apply ih
      · exact h2.symm
      · have hlen : pend.length = pend2.length + 1 := by rw [hpend]; rfl
        have hv2 := hv.2
        rw [hlen] at hv2
        simpa using hv2

/-- Enqueue the sockets in order; return the final queue and whether every
`queue_add` returned 0. -/
def enqMany : List Int → Queue → Queue × Bool
  | [], q => (q, true)
  | sock :: rest, q =>
    let r := queue_add sock q
    let o := enqMany rest r.2
    (o.1, (r.1 == 0) && o.2)

/-- The queue holding the 15 sockets `0, 1, ..., 14`. -/
def q15 : Queue := (enqMany ((List.range 15).map Int.ofNat) Queue.start).1

/-- A registry operation performed by some worker: a successful
`list_append` (register) or a `list_delete` (unregister). -/
inductive RegOp where
  | reg : Int → RegOp
  | unreg : Int → RegOp
  deriving DecidableEq

/-- Apply one registry operation to the list contents: `reg` is the list
mutation of a `list_append` whose `malloc` succeeded, `unreg` is
`list_delete`. -/
def regStep (l : List Int) : RegOp → List Int
  | RegOp.reg sock => (list_append true sock l).2
  | RegOp.unreg sock => (list_delete sock l).head

/-- The registry contents after a sequence of registry operations, starting
from the empty list set up by `list_init`. -/
def regRun (ops : List RegOp) : List Int := ops.foldl regStep []

/-- A sequence of registry operations is valid from registry state `l` when
no handle is registered while it is still present (each socket is owned by
one worker at a time, so a worker registers a socket only after the previous
owner unregistered it). -/
def regValid : List Int → List RegOp → Bool
  | _, [] => true
  | l, RegOp.reg sock :: ops =>
    !(l.contains sock) && regValid (regStep l (RegOp.reg sock)) ops
  | l, RegOp.unreg sock :: ops => regValid (regStep l (RegOp.unreg sock)) ops

/-- The handles registered and not yet unregistered, as a set: the intended
contents of the registry after a sequence of operations. -/
def pendingStep (acc : Finset Int) : RegOp → Finset Int
  | RegOp.reg sock => insert sock acc
  | RegOp.unreg sock => acc.erase sock

/-- The set of handles registered and not yet unregistered after a sequence
of registry operations. -/
def pendingSpec (ops : List RegOp) : Finset Int := ops.foldl pendingStep ∅

lemma list_delete_eq_erase (sock : Int) (l : List Int) :
    (list_delete sock l).head = l.erase sock := by
  induction l with
  | nil => rfl
  | cons x xs ih =>
    by_cases hx : x = sock
    · simp [list_delete, hx, List.erase_cons_head]
    · rw [List.erase_cons_tail (by simpa using hx)]
      simp [list_delete, hx, ih]

lemma reg_inv (ops : List RegOp) : ∀ (l : List Int) (acc : Finset Int),
    l.Nodup → (∀ s : Int, s ∈ l ↔ s ∈ acc) → regValid l ops = true →
    (ops.foldl regStep l).Nodup ∧
    ∀ s : Int, s ∈ ops.foldl regStep l ↔ s ∈ ops.foldl pendingStep acc := by
  induction ops with
  | nil => intro l acc hnd hmem _; exact ⟨hnd, hmem⟩
  | cons op ops ih =>
    intro l acc hnd hmem hv
    cases op with
    | reg sock =>
      rw [regValid, Bool.and_eq_true, Bool.not_eq_true'] at hv
      have hnin : sock ∉ l := by
        intro hin
        have : l.contains sock = true := List.elem_eq_true_of_mem hin
        rw [hv.1] at this
        exact Bool.false_ne_true this
      simp only [List.foldl_cons]
      apply ih
      · show (sock :: l).Nodup
        exact List.nodup_cons.mpr ⟨hnin, hnd⟩
      · intro s
        show s ∈ sock :: l ↔ s ∈ insert sock acc
        rw [List.mem_cons, Finset.mem_insert, hmem]
      · exact hv.2
    | unreg sock =>
      rw [regValid] at hv
      simp only [List.foldl_cons]
      apply ih
      · show ((list_delete sock l).head).Nodup
        rw [list_delete_eq_erase]
        exact hnd.erase sock
      · intro s
        show s ∈ (list_delete sock l).head ↔ s ∈ acc.erase sock
        rw [list_delete_eq_erase, hnd.mem_erase_iff, Finset.mem_erase, hmem]
      · exact hv

lemma list_broadcast_all_ok (w : Int → Int) (len : Int) (l : List Int)
    (hall : ∀ s ∈ l, w s = len) :
    list_broadcast w len l = ⟨0, false, l, l⟩ := by
  induction l with
  | nil => rfl
  | cons a t ih =>
    have ha : w a = len := hall a (List.mem_cons_self a t)
    rw [list_broadcast, if_pos ha,
        ih (fun s hs => hall s (List.mem_cons_of_mem a hs))]

lemma list_broadcast_first_fail (w : Int → Int) (len : Int) (l1 : List Int)
    (s : Int) (l2 : List Int) (h1 : ∀ t ∈ l1, w t = len) (hs : w s ≠ len) :
    list_broadcast w len (l1 ++ s :: l2) = ⟨-1, true, l1 ++ [s], l1⟩ := by
  induction l1 with
  | nil => simp [list_broadcast, hs]
  | cons a t ih =>
    have ha : w a = len := h1 a (List.mem_cons_self a t)
    rw [List.cons_append, list_broadcast, if_pos ha,
        ih (fun x hx => h1 x (List.mem_cons_of_mem a hx))]
    rfl

lemma exists_first_fail (w : Int → Int) (len : Int) (l : List Int)
    (h : ∃ s ∈ l, w s ≠ len) :
    ∃ l1 s l2, l = l1 ++ s :: l2 ∧ (∀ t ∈ l1, w t = len) ∧ w s ≠ len := by
  induction l with
  | nil =>
    obtain ⟨s, hs, _⟩ := h
    exact absurd hs (List.not_mem_nil s)
  | cons a t ih =>
    by_cases ha : w a = len
    · have ht : ∃ s ∈ t, w s ≠ len := by
        obtain ⟨s, hs, hw⟩ := h
        rcases List.mem_cons.mp hs with rfl | hs2
        · exact absurd ha hw
        · exact ⟨s, hs2, hw⟩
      obtain ⟨l1, s, l2, heq, hok, hf⟩ := ih ht
      refine ⟨a :: l1, s, l2, by rw [heq]; rfl, ?_, hf⟩
      intro x hx
      rcases List.mem_cons.mp hx with rfl | hx2
      · exact ha
      · exact hok x hx2
    · exact ⟨[], a, t, rfl, by intro x hx; exact absurd hx (List.not_mem_nil x),
        ha⟩

lemma list_delete_not_mem (sock : Int) (l : List Int) (h : sock ∉ l) :
    list_delete sock l = ⟨l, true⟩ := by
  induction l with
  | nil => rfl
  | cons a t ih =>
    have ha : ¬ a = sock := fun hEq => h (hEq ▸ List.mem_cons_self a t)
    rw [list_delete, if_neg ha, ih (fun hm => h (List.mem_cons_of_mem a hm))]

lemma list_delete_mem_unlocked (sock : Int) (l : List Int) (h : sock ∈ l) :
    (list_delete sock l).locked = false := by
  induction l with
  | nil => exact absurd h (List.not_mem_nil sock)
  | cons a t ih =>
    by_cases ha : a = sock
    · simp [list_delete, ha]
    · have ht : sock ∈ t := by
        rcases List.mem_cons.mp h with h1 | h2
        · exact absurd h1.symm ha
        · exact h2
      simp [list_delete, ha, ih ht]

example : queue_size Queue.start = 0 := by decide
example : (queue_add 3 Queue.start).1 = 0 := by decide
example : contents (queue_add 3 Queue.start).2 = [3] := by decide
example : (list_delete 5 [3, 5, 7]) = ⟨[3, 7], false⟩ := by decide
example : (list_delete 9 [3, 5, 7]).locked = true := by decide
example : list_broadcast (fun s => if s = 2 then 0 else 9) 9 [1, 2, 3] =
    ⟨-1, true, [1, 2], [1]⟩ := by decide
example : do_work (fun _ => 3) [] [ReadRes.rdata [104, 105]] =
    [([104, 105, 0], 3)] := by decide
example : (run_iter false (fun _ => 2) [ReadRes.rdata [104]] 7 []).2 =
    [([104, 0], 2)] := by decide

/-- C1: the claim says that when `list_append` fails to allocate, the worker
loop treats the connection as registration-failed and drops it rather than
servicing it. Counterexample: with allocation failing, `run` still services
the client — a broadcast call is issued for data it sent. -/
theorem c1_registration_failure_counterexample :
    (run_iter false (fun _ => 2) [ReadRes.rdata [104]] 7 []).2 =
      [([104, 0], 2)] ∧
    (run_iter false (fun _ => 2) [ReadRes.rdata [104]] 7 []).2 ≠ [] :=
  ⟨by decide, by decide⟩

/-- C1 (amended): on allocation failure `list_append` surfaces the failure to
its caller by returning NULL and leaves the registry unchanged, but the
worker loop `run` ignores the returned value and services the connection
exactly as if registration had succeeded (the client is merely absent from
the registry while being serviced). -/
theorem c1_registration_failure_amended (sock : Int) (l : List Int)
    (w : Int → Int) (reads : List ReadRes) (registry : List Int) :
    (list_append false sock l).1 = none ∧
    (list_append false sock l).2 = l ∧
    (run_iter false w reads sock registry).2 = do_work w registry reads := by
  refine ⟨rfl, rfl, rfl⟩

/-- C2: `list_broadcast` attempts to write the payload in full to each
registered connection in iteration order; when all writes succeed it reaches
every connection and returns 0, and when some write returns a value other
than `len` it returns -1 right there: the connections before the failing one
(in iteration order) have received the payload in full, the failing one was
attempted, and no later connection is attempted. -/
theorem c2_broadcast_abort_on_partial_write (w : Int → Int) (len : Int) :
    (∀ l : List Int, (∀ s ∈ l, w s = len) →
      (list_broadcast w len l).result = 0 ∧
      (list_broadcast w len l).attempted = l ∧
      (list_broadcast w len l).delivered = l) ∧
    (∀ (l1 : List Int) (s : Int) (l2 : List Int),
      (∀ t ∈ l1, w t = len) → w s ≠ len →
      (list_broadcast w len (l1 ++ s :: l2)).result = -1 ∧
      (list_broadcast w len (l1 ++ s :: l2)).attempted = l1 ++ [s] ∧
      (list_broadcast w len (l1 ++ s :: l2)).delivered = l1) := by
  constructor
  · intro l hall
    rw [list_broadcast_all_ok w len l hall]
    exact ⟨rfl, rfl, rfl⟩
  · intro l1 s l2 h1 hs
    rw [list_broadcast_first_fail w len l1 s l2 h1 hs]
    exact ⟨rfl, rfl, rfl⟩

/-- C2 witness: payload of announced length 9; socket 2's write returns 0, so
the broadcast to [1, 2, 3] stops at 2: 1 got the payload, 3 was never
attempted, and the call returned -1. -/
theorem c2_broadcast_abort_witness :
    (list_broadcast (fun s => if s = 2 then 0 else 9) 9 [1, 2, 3]).result
      = -1 ∧
    (list_broadcast (fun s => if s = 2 then 0 else 9) 9 [1, 2, 3]).attempted
      = [1, 2] ∧
    (list_broadcast (fun s => if s = 2 then 0 else 9) 9 [1, 2, 3]).delivered
      = [1] :=
  (c2_broadcast_abort_on_partial_write (fun s => if s = 2 then 0 else 9) 9).2
    [1] 2 [3] (by decide) (by decide)

/-- C3: early-exit paths leave the registry mutex locked: `list_broadcast`
returns -1 with the mutex still held whenever some registered socket's write
does not return `len`, and `list_delete` returns with the mutex still held
when the socket is not in the list; the all-writes-succeed path and the
found path unlock before returning. -/
theorem c3_mutex_left_locked_on_early_exit (w : Int → Int) (len : Int)
    (l : List Int) (sock : Int) :
    ((∃ s ∈ l, w s ≠ len) → (list_broadcast w len l).result = -1 ∧
      (list_broadcast w len l).locked = true) ∧
    ((∀ s ∈ l, w s = len) → (list_broadcast w len l).result = 0 ∧
      (list_broadcast w len l).locked = false) ∧
    (sock ∉ l → (list_delete sock l).locked = true) ∧
    (sock ∈ l → (list_delete sock l).locked = false) := by
  refine ⟨?_, ?_, ?_, ?_⟩
  · intro h
    obtain ⟨l1, s, l2, heq, hok, hf⟩ := exists_first_fail w len l h
    rw [heq, list_broadcast_first_fail w len l1 s l2 hok hf]
    exact ⟨rfl, rfl⟩
  · intro h
    rw [list_broadcast_all_ok w len l h]
    exact ⟨rfl, rfl⟩
  · intro h
    rw [list_delete_not_mem sock l h]
  · exact list_delete_mem_unlocked sock l

/-- C3 witness: a failing write to socket 2 leaves the broadcast mutex
locked; an all-successful broadcast unlocks; deleting an absent socket 4
leaves the mutex locked; deleting the present socket 2 unlocks. -/
theorem c3_mutex_witness :
    (list_broadcast (fun s => if s = 2 then 0 else 9) 9 [1, 2, 3]).locked
      = true ∧
    (list_broadcast (fun _ => 9) 9 [1, 2, 3]).locked = false ∧
    (list_delete 4 [1, 2, 3]).locked = true ∧
    (list_delete 2 [1, 2, 3]).locked = false :=
  ⟨((c3_mutex_left_locked_on_early_exit (fun s => if s = 2 then 0 else 9) 9
      [1, 2, 3] 4).1 (by decide)).2,
   ((c3_mutex_left_locked_on_early_exit (fun _ => 9) 9 [1, 2, 3] 4).2.1
      (by decide)).2,
   (c3_mutex_left_locked_on_early_exit (fun _ => 9) 9 [1, 2, 3] 4).2.2.1
      (by decide),
   (c3_mutex_left_locked_on_early_exit (fun _ => 9) 9 [1, 2, 3] 2).2.2.2
      (by decide)⟩

/-- C4: `queue_add` returns -1 and leaves the queue unchanged exactly when
the queue holds 15 = QUEUE_MAX - 1 items, and returns 0 otherwise; from the
empty queue, 15 enqueues all succeed, a 16th is rejected, and after one
`queue_get` a further enqueue succeeds. -/
theorem c4_enqueue_reject_at_15 :
    (∀ (sock : Int) (q : Queue),
      ((queue_add sock q).1 = -1 ↔ queue_size q = 15) ∧
      ((queue_add sock q).1 = 0 ↔ queue_size q ≠ 15) ∧
      (queue_size q = 15 → queue_add sock q = (-1, q))) ∧
    (enqMany ((List.range 15).map Int.ofNat) Queue.start).2 = true ∧
    (queue_add 99 q15).1 = -1 ∧
    (queue_get q15).isSome = true ∧
    (queue_add 99 ((queue_get q15).getD (0, Queue.start)).2).1 = 0 := by
  refine ⟨?_, by decide, by decide, by decide, by decide⟩
  intro sock q
  by_cases h : queue_size q = 15
  · simp [queue_add, h]
  · simp [queue_add, h]

/-- C4 witness: the queue holding 15 sockets rejects an enqueue, returning -1
and leaving the state untouched. -/
theorem c4_enqueue_reject_witness :
    queue_size q15 = 15 ∧ queue_add 7 q15 = (-1, q15) :=
  ⟨by decide, (c4_enqueue_reject_at_15.1 7 q15).2.2 (by decide)⟩

/-- C5: on every operation sequence in which each enqueue happens with fewer
than 15 items pending (so it succeeds) and each dequeue happens on a
non-empty queue (so it does not block), the circular-buffer implementation
returns dequeued sockets in exactly the order of the functional FIFO queue,
that is, in enqueue order. -/
theorem c5_fifo_order (ops : List QOp) (h : validFrom 0 ops = true) :
    (runQueueImpl ops).2 = (runQueueSpec ops).2 := by
  have h0 : contents Queue.start = [] := rfl
  unfold runQueueImpl runQueueSpec
  exact fifo_sim ops Queue.start [] [] h0 h

/-- C5 witness: enqueue 10 then 20, dequeue twice: the implementation yields
[10, 20], matching the FIFO model. -/
theorem c5_fifo_witness :
    validFrom 0 [QOp.enq 10, QOp.enq 20, QOp.deq, QOp.deq] = true ∧
    (runQueueImpl [QOp.enq 10, QOp.enq 20, QOp.deq, QOp.deq]).2 =
      (runQueueSpec [QOp.enq 10, QOp.enq 20, QOp.deq, QOp.deq]).2 :=
  ⟨by decide, c5_fifo_order [QOp.enq 10, QOp.enq 20, QOp.deq, QOp.deq]
    (by decide)⟩

/-- C6: every broadcast call issued by `do_work` carries exactly the bytes of
one successful read plus a single null terminator: the payload is
`bytes ++ [0]` (the null byte sits at position `n = bytes.length`) and the
announced length is `n + 1`. -/
theorem c6_payload_null_terminated (w : Int → Int) (registry : List Int)
    (reads : List ReadRes) (p : List Int × Int)
    (hp : p ∈ do_work w registry reads) :
    ∃ bytes : List Int, ReadRes.rdata bytes ∈ reads ∧
      p.1 = bytes ++ [0] ∧ p.2 = (bytes.length : Int) + 1 ∧
      p.1.length = bytes.length + 1 ∧ p.1.drop bytes.length = [0] := by
  induction reads with
  | nil => exact absurd hp (List.not_mem_nil p)
  | cons r rest ih =>
    cases r with
    | rerr => exact absurd hp (List.not_mem_nil p)
    | reof => exact absurd hp (List.not_mem_nil p)
    | rdata bytes =>
      simp only [do_work] at hp
      by_cases hb :
          (list_broadcast w ((bytes.length : Int) + 1) registry).result < 0
      · rw [if_pos hb] at hp
        rcases List.mem_cons.mp hp with heq | hmem
        · subst heq
          exact ⟨bytes, List.mem_cons_self _ _, rfl, rfl, by simp, by simp⟩
        · exact absurd hmem (List.not_mem_nil p)
      · rw [if_neg hb] at hp
        rcases List.mem_cons.mp hp with heq | hmem
        · subst heq
          exact ⟨bytes, List.mem_cons_self _ _, rfl, rfl, by simp, by simp⟩
        · obtain ⟨b2, hb2, h1, h2, h3, h4⟩ := ih hmem
          exact ⟨b2, List.mem_cons_of_mem _ hb2, h1, h2, h3, h4⟩

/-- C6 witness: a read of the two bytes [104, 105] makes `do_work` broadcast
the payload [104, 105, 0] with announced length 3. -/
theorem c6_payload_witness :
    ∃ bytes : List Int, ReadRes.rdata bytes ∈ [ReadRes.rdata [104, 105]] ∧
      (([104, 105, 0], (3 : Int)) : List Int × Int).1 = bytes ++ [0] ∧
      (([104, 105, 0], (3 : Int)) : List Int × Int).2
        = (bytes.length : Int) + 1 ∧
      (([104, 105, 0], (3 : Int)) : List Int × Int).1.length
        = bytes.length + 1 ∧
      (([104, 105, 0], (3 : Int)) : List Int × Int).1.drop bytes.length
        = [0] :=
  c6_payload_null_terminated (fun _ => 3) [] [ReadRes.rdata [104, 105]]
    ([104, 105, 0], 3) (by decide)

/-- C7: when every write succeeds, `list_broadcast` writes the payload to
every connection registered at the time of the call — the write is attempted
and delivered to the whole list, and in particular a sender whose own socket
is registered receives its own message; no registered connection is excluded
from the fanout. -/
theorem c7_broadcast_includes_sender (w : Int → Int) (len : Int)
    (l : List Int) (sender : Int) (hsend : sender ∈ l)
    (hall : ∀ s ∈ l, w s = len) :
    (list_broadcast w len l).attempted = l ∧
    (list_broadcast w len l).delivered = l ∧
    sender ∈ (list_broadcast w len l).delivered := by
  rw [list_broadcast_all_ok w len l hall]
  exact ⟨rfl, rfl, hsend⟩

/-- C7 witness: broadcasting to the registry [8, 9] where 8 is the sender
delivers to both 8 and 9 — the sender is not excluded. -/
theorem c7_broadcast_witness :
    (list_broadcast (fun _ => 6) 6 [8, 9]).attempted = [8, 9] ∧
    (list_broadcast (fun _ => 6) 6 [8, 9]).delivered = [8, 9] ∧
    (8 : Int) ∈ (list_broadcast (fun _ => 6) 6 [8, 9]).delivered :=
  c7_broadcast_includes_sender (fun _ => 6) 6 [8, 9] 8 (by decide) (by decide)

/-- C8: the queue size `(16 - read + write) % 16` is 0 in the initial state
and stays in [0, 15] in every state reachable by `queue_add` and `queue_get`
steps. -/
theorem c8_queue_size_invariant :
    queue_size Queue.start = 0 ∧
    ∀ q : Queue, Reachable q → queue_size q ≤ 15 := by
  refine ⟨by decide, ?_⟩
  intro q _
  have := queue_size_lt q
  omega

/-- C8 witness: the state after one enqueue from the initial queue is
reachable and its size is within [0, 15]. -/
theorem c8_queue_size_witness :
    queue_size (queue_add 3 Queue.start).2 ≤ 15 :=
  c8_queue_size_invariant.2 (queue_add 3 Queue.start).2
    (Reachable.add 3 Queue.start Reachable.start)

/-- C9: the claim says the registry never contains two entries with the same
handle, over every sequence of register/unregister operations.
Counterexample: registering the handle 5 twice in a row puts two entries
with the handle 5 in the registry. -/
theorem c9_duplicate_registration_counterexample :
    regRun [RegOp.reg 5, RegOp.reg 5] = [5, 5] ∧
    ¬ (regRun [RegOp.reg 5, RegOp.reg 5]).Nodup :=
  ⟨by decide, by decide⟩

/-- C9 (amended): over every sequence of register/unregister operations in
which a handle is only registered while not currently present (each socket
has one owning worker at a time), the registry never contains duplicate
handles, and a handle is in the registry exactly when it was registered and
not yet unregistered — no such handle is ever lost. -/
theorem c9_registry_no_dup_no_loss (ops : List RegOp)
    (h : regValid [] ops = true) :
    (regRun ops).Nodup ∧
    ∀ s : Int, s ∈ regRun ops ↔ s ∈ pendingSpec ops :=
  reg_inv ops [] ∅ List.nodup_nil (by simp) h

/-- C9 witness: register 5, register 7, unregister 5 — a valid sequence; the
registry is duplicate-free and holds 5 exactly when the pending set does. -/
theorem c9_registry_witness :
    (regRun [RegOp.reg 5, RegOp.reg 7, RegOp.unreg 5]).Nodup ∧
    ((5 : Int) ∈ regRun [RegOp.reg 5, RegOp.reg 7, RegOp.unreg 5] ↔
      (5 : Int) ∈ pendingSpec [RegOp.reg 5, RegOp.reg 7, RegOp.unreg 5]) :=
  ⟨(c9_registry_no_dup_no_loss [RegOp.reg 5, RegOp.reg 7, RegOp.unreg 5]
      (by decide)).1,
   (c9_registry_no_dup_no_loss [RegOp.reg 5, RegOp.reg 7, RegOp.unreg 5]
      (by decide)).2 5⟩

/-- C10: `list_delete` removes exactly the first entry equal to the given
socket, leaving every other entry in place, and leaves the list untouched
(a no-op, not an error) when the socket is not present. -/
theorem c10_delete_first_match (sock : Int) (l : List Int) :
    (sock ∉ l → (list_delete sock l).head = l) ∧
    (sock ∈ l → ∃ l1 l2 : List Int, l = l1 ++ sock :: l2 ∧ sock ∉ l1 ∧
      (list_delete sock l).head = l1 ++ l2) := by
  constructor
  · intro h
    rw [list_delete_eq_erase]
    exact List.erase_of_not_mem h
  · intro h
    obtain ⟨l1, l2, hnin, heq, herase⟩ := List.exists_erase_eq h
    exact ⟨l1, l2, heq, hnin, by rw [list_delete_eq_erase, herase]⟩

/-- C10 witness: deleting 9 from [3, 5, 7] is a no-op; deleting 5 removes
exactly the single entry 5. -/
theorem c10_delete_witness :
    (list_delete 9 [3, 5, 7]).head = [3, 5, 7] ∧
    ∃ l1 l2 : List Int, ([3, 5, 7] : List Int) = l1 ++ 5 :: l2 ∧
      (5 : Int) ∉ l1 ∧ (list_delete 5 [3, 5, 7]).head = l1 ++ l2 :=
  ⟨(c10_delete_first_match 9 [3, 5, 7]).1 (by decide),
   (c10_delete_first_match 5 [3, 5, 7]).2 (by decide)⟩
